import Mathlib

/-!
Verification of the managed-secret store in `src/endpoints/secrets.js`.

The persisted document is a single JSON object: string-valued fields for
legacy ("flat") secrets, plus one field `managed` holding a map from key to
an ordered array of `{comment, value}` entries.  Every operation in the
source loads the whole file, computes a new document and saves it; the
functions below are the compute parts, acting on an in-memory document.
JavaScript objects are modelled as association lists (insertion order,
unique keys), JS property access as lookup on the first matching key,
JS truthiness by `truthy` below, and an absent / `undefined` property as
`Option.none`.
-/

namespace Secrets

/-- A managed entry `{comment, value}`.  `value` is `none` when the entry
has no `value` property (JSON.stringify drops `undefined` properties, so
`migrate` of an unset key persists an entry with only a comment). -/
structure Entry where
  comment : String
  value : Option String
deriving DecidableEq, Repr, Inhabited

/-- A top-level field of the document: either a legacy string secret or the
`managed` map of entry lists.  (The single key `"managed"` is the only one
that holds a map in the source's `SecretState` type.) -/
inductive FieldVal where
  | vstr (s : String)
  | vmap (m : List (String × List Entry))
deriving DecidableEq, Repr

/-- The whole document, as a JS object: ordered association list. -/
abbrev SecretState := List (String × FieldVal)

/-- JS property read `obj[k]` (first occurrence wins; JS objects have
unique keys). -/
def alookup {α : Type} : List (String × α) → String → Option α
  | [], _ => none
  | (k2, v) :: rest, k => if k2 = k then some v else alookup rest k

/-- JS property assignment `obj[k] = v`: update in place if the key exists,
else append at the end (insertion order). -/
def aset {α : Type} : List (String × α) → String → α → List (String × α)
  | [], k, v => [(k, v)]
  | (k2, v2) :: rest, k, v =>
      if k2 = k then (k, v) :: rest else (k2, v2) :: aset rest k v

/-- JS `delete obj[k]`. -/
def adel {α : Type} : List (String × α) → String → List (String × α)
  | [], _ => []
  | (k2, v2) :: rest, k =>
      if k2 = k then adel rest k else (k2, v2) :: adel rest k

/-- JS truthiness of a property value: `undefined` and `""` are falsy,
non-empty strings and every object are truthy. -/
def truthy : Option FieldVal → Bool
  | none => false
  | some (.vstr s) => s != ""
  | some (.vmap _) => true

/-- JS strict equality `entryValue === currentSecret` as it occurs in the
source, where the left side is an entry's `value` property (a string or
`undefined`) and the right side is the raw document field at the key.
`undefined === undefined` is true; a string never strictly equals an
object, and object comparisons across separate loads are reference
comparisons of distinct parses, hence false. -/
def entryValEq : Option String → Option FieldVal → Bool
  | some s, some (.vstr t) => s == t
  | none, none => true
  | _, _ => false

/-- `Array.prototype.findIndex`, returning `none` instead of `-1`. -/
def findIdxA {α : Type} (p : α → Bool) : List α → Option Nat
  | [] => none
  | x :: xs => if p x then some 0 else (findIdxA p xs).map (· + 1)

/-- `INITIAL_STATE = { managed: {} }`. -/
def initialState : SecretState := [("managed", .vmap [])]

/-- `writeSecret`: `secrets[key] = value` then save. -/
def writeSecret (st : SecretState) (key value : String) : SecretState :=
  aset st key (.vstr value)

/-- `writeSecret` as called from `rotateManagedSecret`, where the written
value may be an entry's absent `value` property.  Assigning `undefined`
and saving serializes exactly like deleting the property (JSON.stringify
omits `undefined`-valued properties), so it is modelled as a delete. -/
def writeSecretV (st : SecretState) (key : String) : Option String → SecretState
  | some s => writeSecret st key s
  | none => adel st key

/-- `deleteSecret`: `delete secrets[key]` then save. -/
def deleteSecret (st : SecretState) (key : String) : SecretState :=
  adel st key

/-- `readSecret`: `return secrets[key]`. -/
def readSecret (st : SecretState) (key : String) : Option FieldVal :=
  alookup st key

/-- The flat (string) value visible at a key: the active value `A` when the
field holds a string, absent otherwise. -/
def flatAt (st : SecretState) (key : String) : Option String :=
  match alookup st key with
  | some (.vstr s) => some s
  | _ => none

/-- The entry array `secrets.managed[key]`, when `secrets.managed` is the
map and holds an array at `key` (`Array.isArray` guard in the source). -/
def arrayAt (st : SecretState) (key : String) : Option (List Entry) :=
  match alookup st "managed" with
  | some (.vmap m) => alookup m key
  | _ => none

/-- All managed lists, when the `managed` field holds the map. -/
def managedLists (st : SecretState) : Option (List (String × List Entry)) :=
  match alookup st "managed" with
  | some (.vmap m) => some m
  | _ => none

/-- The dynamic `searchValue` of `rotateManagedSecret`: a JSON number
(integer), a string, or absent. -/
inductive Search where
  | byNum (n : Int)
  | byStr (s : String)
  | absent
deriving DecidableEq, Repr

/-- JS `String.prototype.trim`: remove whitespace from both ends
(whitespace characters as relevant to the claims). -/
def trimS (s : String) : String :=
  ⟨((s.data.dropWhile Char.isWhitespace).reverse.dropWhile
      Char.isWhitespace).reverse⟩

/-- JS `String.prototype.toLowerCase` (case folding of the letters
relevant to the claims). -/
def lowerS (s : String) : String :=
  ⟨s.data.map Char.toLower⟩

/-- The two typeof-guarded selection rules of `rotateManagedSecret`:
an in-range numeric index picks `managed[searchValue]`; a string with
non-empty trim picks the first entry whose trimmed, lower-cased comment
equals the trimmed, lower-cased search. -/
def searchSelect (l : List Entry) : Search → Option Entry
  | .byNum n => if 0 ≤ n ∧ n < (l.length : Int) then l.get? n.toNat else none
  | .byStr s =>
      if 0 < (trimS s).length then
        l.find? (fun e => lowerS (trimS e.comment) == lowerS (trimS s))
      else none
  | .absent => none

/-- The entry `rotateManagedSecret` settles on for a non-empty list
`e0 :: rest`: the search rules first, else
`managed[currentIndex + 1] || managed[0]` where `currentIndex` is
`findIndex(value === currentSecret)` (so `-1 + 1 = 0` when nothing
matches). -/
def pickEntry (st : SecretState) (key : String) (search : Search)
    (e0 : Entry) (rest : List Entry) : Entry :=
  match searchSelect (e0 :: rest) search with
  | some e => e
  | none =>
      match findIdxA (fun e => entryValEq e.value (alookup st key)) (e0 :: rest) with
      | some j => ((e0 :: rest).get? (j + 1)).getD e0
      | none => e0

/-- `rotateManagedSecret`: no-op unless `secrets.managed` is truthy and
`secrets.managed[key]` is a non-empty array; otherwise writes the selected
entry's `value` as the new active value. -/
def rotateManagedSecret (st : SecretState) (key : String) (search : Search) :
    SecretState :=
  if truthy (alookup st "managed") = false then st
  else
    match arrayAt st key with
    | some (e0 :: rest) => writeSecretV st key (pickEntry st key search e0 rest).value
    | _ => st

/-- `appendManagedKey`: create `secrets.managed` if falsy, create the entry
array if falsy, push `{comment, value}`, save.  When `secrets.managed` is a
truthy non-object (a non-empty string put there through the shared
namespace), the strict-mode property assignment throws and nothing is
saved, so the persisted document is unchanged. -/
def appendManagedKey (st : SecretState) (key comment : String)
    (value : Option String) : SecretState :=
  match alookup st "managed" with
  | none => aset st "managed" (.vmap [(key, [⟨comment, value⟩])])
  | some (.vstr s) =>
      if s == "" then aset st "managed" (.vmap [(key, [⟨comment, value⟩])])
      else st
  | some (.vmap m) =>
      aset st "managed"
        (.vmap (aset m key ((alookup m key).getD [] ++ [⟨comment, value⟩])))

/-- `spliceManagedKey`: no-op unless `secrets.managed[key]` is an array and
the index is in `[0, length)`; otherwise `splice(index, 1)`. -/
def spliceManagedKey (st : SecretState) (key : String) (index : Int) :
    SecretState :=
  match alookup st "managed" with
  | some (.vmap m) =>
      match alookup m key with
      | some l =>
          if index < 0 ∨ (l.length : Int) ≤ index then st
          else aset st "managed" (.vmap (aset m key (l.eraseIdx index.toNat)))
      | none => st
  | _ => st

/-- Result of `probeManagedKey`. -/
structure ProbeResult where
  result : Bool
  index : Int
deriving DecidableEq, Repr

/-- `probeManagedKey`: `{result: false, index: -1}` unless
`secrets.managed[key]` is an array; else findIndex of the entry whose
`value` strictly equals the current raw field at `key`. -/
def probeManagedKey (st : SecretState) (key : String) : ProbeResult :=
  match arrayAt st key with
  | none => ⟨false, -1⟩
  | some l =>
      match findIdxA (fun e => entryValEq e.value (alookup st key)) l with
      | some i => ⟨true, (i : Int)⟩
      | none => ⟨false, -1⟩

/-- Outcome of the `/manager/migrate` route, carrying the persisted
document (unchanged on conflict: the 409 path performs no write). -/
inductive MigrateOutcome where
  | conflict (st : SecretState)
  | ok (st : SecretState)
deriving DecidableEq, Repr

/-- The persisted document after the call. -/
def MigrateOutcome.state : MigrateOutcome → SecretState
  | .conflict st => st
  | .ok st => st

/-- Whether the call answered 409 Conflict. -/
def MigrateOutcome.isConflict : MigrateOutcome → Bool
  | .conflict _ => true
  | .ok _ => false

/-- The entry value `migrate` appends: the raw current field at the key.
A string stays a string and an absent field stays absent; a non-string
field (the managed map itself, reachable only at the literal key
`"managed"`) is a non-string property whose claim-relevant observations
(truthiness, strict string comparisons, list lengths) coincide with an
absent value, which is how it is modelled. -/
def toEntryVal : Option FieldVal → Option String
  | some (.vstr s) => some s
  | _ => none

/-- The `/manager/migrate` route: 409 if `probeManagedKey` reports the
current value as managed, else append `{comment, currentSecret}`. -/
def migrateManagedSecret (st : SecretState) (key comment : String) :
    MigrateOutcome :=
  if (probeManagedKey st key).result then .conflict st
  else .ok (appendManagedKey st key comment (toEntryVal (alookup st key)))

/-- One row of the redacted manager view: comment and selection flag,
no value. -/
structure ManagedKeyState where
  comment : String
  selected : Bool
deriving DecidableEq, Repr

/-- `readManagedSecretsState`: for every key of `secrets.managed`, project
each entry to `{comment, selected}` with
`selected = (secrets[key] === entry.value)`.  Returns the empty state when
`secrets.managed` is falsy; a truthy non-map `managed` field (a non-empty
string) is outside the source's `SecretManagerState` type and is modelled
as the empty state as well. -/
def readManagedSecretsState (st : SecretState) :
    List (String × List ManagedKeyState) :=
  match alookup st "managed" with
  | some (.vmap m) =>
      m.map (fun p =>
        (p.1, p.2.map (fun e => ⟨e.comment, entryValEq e.value (alookup st p.1)⟩)))
  | _ => []

/-- Well-formedness of a top-level field under the source's `SecretState`
type: every key other than `managed` holds a string, and `managed` holds
the map whose entries all carry a string `value`. -/
def wfField : String → FieldVal → Bool
  | k, .vstr _ => k != "managed"
  | k, .vmap m => k == "managed" && m.all (fun p => p.2.all (fun e => e.value.isSome))

/-- A document of the shape the specification's data model describes. -/
def wfDoc (st : SecretState) : Bool :=
  st.all (fun p => wfField p.1 p.2)

/-- The specification's matching rule for locating the active value in the
list: an entry matches exactly when the active value `A` is set and the
entry's `value` equals it; an absent `A` matches no entry. -/
def specMatch (a : Option String) (e : Entry) : Bool :=
  match a with
  | some s => e.value == some s
  | none => false

/-! ### Association-list lemmas -/

theorem alookup_aset_self {α : Type} (l : List (String × α)) (k : String) (v : α) :
    alookup (aset l k v) k = some v := by
  induction l with
  | nil => simp [aset, alookup]
  | cons p rest ih =>
    obtain ⟨k2, v2⟩ := p
    by_cases h : k2 = k <;> simp [aset, alookup, h, ih]

theorem alookup_aset_ne {α : Type} (l : List (String × α)) (k k2 : String) (v : α)
    (h : k2 ≠ k) : alookup (aset l k v) k2 = alookup l k2 := by
  induction l with
  | nil => simp [aset, alookup, Ne.symm h]
  | cons p rest ih =>
    obtain ⟨k3, v3⟩ := p
    by_cases h3 : k3 = k
    · simp [aset, alookup, h3, Ne.symm h]
    · simp [aset, alookup, h3, ih]

theorem alookup_adel_self {α : Type} (l : List (String × α)) (k : String) :
    alookup (adel l k) k = none := by
  induction l with
  | nil => simp [adel, alookup]
  | cons p rest ih =>
    obtain ⟨k2, v2⟩ := p
    by_cases h : k2 = k <;> simp [adel, alookup, h, ih]

theorem alookup_adel_ne {α : Type} (l : List (String × α)) (k k2 : String)
    (h : k2 ≠ k) : alookup (adel l k) k2 = alookup l k2 := by
  induction l with
  | nil => simp [adel]
  | cons p rest ih =>
    obtain ⟨k3, v3⟩ := p
    by_cases h3 : k3 = k
    · simp [adel, alookup, h3, Ne.symm h, ih]
    · simp [adel, alookup, h3, ih]

theorem alookup_mem {α : Type} {l : List (String × α)} {k : String} {v : α}
    (h : alookup l k = some v) : (k, v) ∈ l := by
  induction l with
  | nil => simp [alookup] at h
  | cons p rest ih =>
    obtain ⟨k2, v2⟩ := p
    by_cases h2 : k2 = k
    · subst h2
      simp [alookup] at h
      simp [h]
    · simp [alookup, h2] at h
      exact List.mem_cons_of_mem _ (ih h)

/-! ### findIndex lemmas -/

theorem findIdxA_lt_length {α : Type} {p : α → Bool} :
    ∀ {l : List α} {j : Nat}, findIdxA p l = some j → j < l.length := by
  intro l
  induction l with
  | nil => intro j h; simp [findIdxA] at h
  | cons x xs ih =>
    intro j h
    by_cases hx : p x
    · rw [findIdxA, if_pos hx] at h
      injection h with h2
      subst h2
      simp
    · rw [findIdxA, if_neg hx] at h
      obtain ⟨j2, hj2, hj⟩ := Option.map_eq_some'.mp h
      subst hj
      have := ih hj2
      simp only [List.length_cons]
      omega

theorem findIdxA_congr {α : Type} {p q : α → Bool} :
    ∀ {l : List α}, (∀ x ∈ l, p x = q x) → findIdxA p l = findIdxA q l := by
  intro l
  induction l with
  | nil => intro _; rfl
  | cons x xs ih =>
    intro h
    have hx : p x = q x := h x (List.mem_cons_self x xs)
    have hxs : ∀ y ∈ xs, p y = q y := fun y hy => h y (List.mem_cons_of_mem x hy)
    simp [findIdxA, hx, ih hxs]

theorem findIdxA_isSome_of_mem {α : Type} {p : α → Bool} :
    ∀ {l : List α} {x : α}, x ∈ l → p x = true → (findIdxA p l).isSome = true := by
  intro l
  induction l with
  | nil => intro x hx; simp at hx
  | cons y ys ih =>
    intro x hx hpx
    rcases List.mem_cons.mp hx with rfl | hmem
    · simp [findIdxA, hpx]
    · by_cases hy : p y
      · simp [findIdxA, hy]
      · have := ih hmem hpx
        simp [findIdxA, hy]
        cases h2 : findIdxA p ys with
        | none => rw [h2] at this; simp at this
        | some j => simp

theorem findIdxA_append_last {α : Type} (p : α → Bool) :
    ∀ (l : List α) (x : α), (∀ y ∈ l, p y = false) → p x = true →
      findIdxA p (l ++ [x]) = some l.length := by
  intro l
  induction l with
  | nil => intro x _ hx; simp [findIdxA, hx]
  | cons y ys ih =>
    intro x h hx
    have hy : p y = false := h y (List.mem_cons_self y ys)
    have hys : ∀ z ∈ ys, p z = false := fun z hz => h z (List.mem_cons_of_mem y hz)
    simp [findIdxA, hy, ih x hys hx]

/-! ### Effect of the write primitives on the flat view -/

theorem flatAt_writeSecretV_self (st : SecretState) (key : String)
    (v : Option String) : flatAt (writeSecretV st key v) key = v := by
  cases v with
  | some s => simp [writeSecretV, writeSecret, flatAt, alookup_aset_self]
  | none => simp [writeSecretV, flatAt, alookup_adel_self]

/-! ### Well-formedness consequences -/

theorem wfDoc_field {st : SecretState} {k : String} {v : FieldVal}
    (hw : wfDoc st = true) (h : alookup st k = some v) : wfField k v = true := by
  have hmem := alookup_mem h
  have := List.all_eq_true.mp hw ⟨k, v⟩ hmem
  exact this

theorem wfDoc_flat_shape {st : SecretState} {k : String}
    (hw : wfDoc st = true) (hk : k ≠ "managed") :
    alookup st k = none ∨ ∃ s, alookup st k = some (.vstr s) := by
  cases h : alookup st k with
  | none => exact Or.inl rfl
  | some v =>
    cases v with
    | vstr s => exact Or.inr ⟨s, rfl⟩
    | vmap m =>
      have := wfDoc_field hw h
      simp [wfField] at this
      exact absurd this.1 hk

theorem wfDoc_managed_shape {st : SecretState} {m : List (String × List Entry)}
    (hw : wfDoc st = true) (h : alookup st "managed" = some (.vmap m)) :
    ∀ p ∈ m, ∀ e ∈ p.2, e.value.isSome = true := by
  have := wfDoc_field hw h
  simp [wfField] at this
  intro p hp e he
  exact this p.1 p.2 hp e he

theorem wfDoc_managed_not_str {st : SecretState} {s : String}
    (hw : wfDoc st = true) : alookup st "managed" ≠ some (.vstr s) := by
  intro h
  have := wfDoc_field hw h
  simp [wfField] at this

/-- Under a well-formed document, the strict-equality test of the source
coincides with the specification's matching rule, for entries carrying a
string value. -/
theorem entryValEq_eq_specMatch (st : SecretState) (key : String)
    (e : Entry) (he : e.value.isSome = true) :
    entryValEq e.value (alookup st key) = specMatch (flatAt st key) e := by
  obtain ⟨s, hs⟩ := Option.isSome_iff_exists.mp he
  cases h : alookup st key with
  | none => simp [entryValEq, specMatch, flatAt, h, hs]
  | some v =>
    cases v with
    | vstr t => simp [entryValEq, specMatch, flatAt, h, hs]
    | vmap m => simp [entryValEq, specMatch, flatAt, h, hs]

/-! ### Reduction lemmas for the operations -/

theorem arrayAt_eq_some {st : SecretState} {key : String} {l : List Entry}
    (h : arrayAt st key = some l) :
    ∃ m, alookup st "managed" = some (.vmap m) ∧ alookup m key = some l := by
  unfold arrayAt at h
  cases hm : alookup st "managed" with
  | none => rw [hm] at h; simp at h
  | some fv =>
    cases fv with
    | vstr s => rw [hm] at h; simp at h
    | vmap m => rw [hm] at h; exact ⟨m, rfl, h⟩

theorem arrayAt_of_lookups {st : SecretState} {key : String}
    {m : List (String × List Entry)}
    (hm : alookup st "managed" = some (.vmap m)) :
    arrayAt st key = alookup m key := by
  unfold arrayAt
  rw [hm]

theorem rotate_noop (st : SecretState) (key : String) (search : Search)
    (h : arrayAt st key = none ∨ arrayAt st key = some []) :
    rotateManagedSecret st key search = st := by
  unfold rotateManagedSecret
  by_cases ht : truthy (alookup st "managed") = false
  · rw [if_pos ht]
  · rw [if_neg ht]
    rcases h with h | h <;> rw [h]

theorem rotate_eq_write (st : SecretState) (key : String) (search : Search)
    {m : List (String × List Entry)} {e0 : Entry} {rest : List Entry}
    (hm : alookup st "managed" = some (.vmap m))
    (hl : alookup m key = some (e0 :: rest)) :
    rotateManagedSecret st key search
      = writeSecretV st key (pickEntry st key search e0 rest).value := by
  unfold rotateManagedSecret arrayAt
  rw [hm]
  dsimp only
  rw [hl]
  simp [truthy]

theorem searchSelect_empty (l : List Entry) (s : Search)
    (hs : s = Search.absent ∨ ∃ t, s = Search.byStr t ∧ trimS t = "") :
    searchSelect l s = none := by
  rcases hs with rfl | ⟨t, rfl, ht⟩
  · rfl
  · simp [searchSelect, ht]

theorem getD_succ_wrap {α : Type} (x : α) (xs : List α) (j : Nat)
    (hj : j < (x :: xs).length) (e : α)
    (he : (x :: xs).get? ((j + 1) % (x :: xs).length) = some e) :
    ((x :: xs).get? (j + 1)).getD x = e := by
  by_cases h : j + 1 < (x :: xs).length
  · rw [Nat.mod_eq_of_lt h] at he
    rw [he]
    rfl
  · have hlen : j + 1 = (x :: xs).length := by
      simp only [List.length_cons] at *
      omega
    rw [hlen, Nat.mod_self] at he
    have h0 : (x :: xs).get? 0 = some x := rfl
    rw [h0] at he
    injection he with he
    subst he
    have hnone : (x :: xs).get? (j + 1) = none := by
      rw [hlen]
      exact List.get?_eq_none.mpr (le_refl _)
    rw [hnone]
    rfl

theorem probe_result_true {st : SecretState} {key : String} {l : List Entry}
    (hl : arrayAt st key = some l) {e : Entry} (he : e ∈ l)
    (hpe : entryValEq e.value (alookup st key) = true) :
    (probeManagedKey st key).result = true := by
  have hsome := @findIdxA_isSome_of_mem Entry
    (fun e => entryValEq e.value (alookup st key)) l e he hpe
  unfold probeManagedKey
  rw [hl]
  dsimp only
  cases h2 : findIdxA (fun e => entryValEq e.value (alookup st key)) l with
  | none => rw [h2] at hsome; simp at hsome
  | some i => rfl

theorem probe_of_findIdxA {st : SecretState} {key : String} {l : List Entry}
    (hl : arrayAt st key = some l) :
    probeManagedKey st key
      = match findIdxA (fun e => entryValEq e.value (alookup st key)) l with
        | some i => ⟨true, (i : Int)⟩
        | none => ⟨false, -1⟩ := by
  unfold probeManagedKey
  rw [hl]

theorem probe_of_arrayAt_none {st : SecretState} {key : String}
    (hl : arrayAt st key = none) : probeManagedKey st key = ⟨false, -1⟩ := by
  unfold probeManagedKey
  rw [hl]

/-! ### Effect of append and write on the document -/

theorem arrayAt_append (st : SecretState) (key comment : String)
    (v : Option String) (hw : wfDoc st = true) :
    arrayAt (appendManagedKey st key comment v) key
      = some ((arrayAt st key).getD [] ++ [⟨comment, v⟩]) := by
  cases hm : alookup st "managed" with
  | none =>
    have h0 : arrayAt st key = none := by unfold arrayAt; rw [hm]
    rw [h0]
    unfold appendManagedKey
    rw [hm]
    dsimp only
    unfold arrayAt
    rw [alookup_aset_self]
    dsimp only
    simp [alookup]
  | some fv =>
    cases fv with
    | vstr s => exact absurd hm (wfDoc_managed_not_str hw)
    | vmap m =>
      rw [arrayAt_of_lookups hm]
      unfold appendManagedKey
      rw [hm]
      dsimp only
      unfold arrayAt
      rw [alookup_aset_self]
      dsimp only
      rw [alookup_aset_self]

theorem alookup_append_ne_managed (st : SecretState) (key comment : String)
    (v : Option String) (k2 : String) (hk2 : k2 ≠ "managed")
    (hw : wfDoc st = true) :
    alookup (appendManagedKey st key comment v) k2 = alookup st k2 := by
  unfold appendManagedKey
  cases hm : alookup st "managed" with
  | none => exact alookup_aset_ne st "managed" k2 _ hk2
  | some fv =>
    cases fv with
    | vstr s => exact absurd hm (wfDoc_managed_not_str hw)
    | vmap m => exact alookup_aset_ne st "managed" k2 _ hk2

theorem arrayAt_writeSecret_ne (st : SecretState) (key v k2 : String)
    (hk : key ≠ "managed") :
    arrayAt (writeSecret st key v) k2 = arrayAt st k2 := by
  unfold arrayAt writeSecret
  rw [alookup_aset_ne st key "managed" _ (Ne.symm hk)]

theorem flatAt_aset_managed_vmap (st : SecretState)
    (m : List (String × List Entry))
    (h : alookup st "managed" = none ∨
        ∃ m0, alookup st "managed" = some (.vmap m0)) (k2 : String) :
    flatAt (aset st "managed" (.vmap m)) k2 = flatAt st k2 := by
  by_cases hk : k2 = "managed"
  · subst hk
    rcases h with h | ⟨m0, h⟩ <;> simp [flatAt, alookup_aset_self, h]
  · simp [flatAt, alookup_aset_ne st "managed" k2 _ hk]

theorem flatAt_append_eq (st : SecretState) (key comment : String)
    (v : Option String) (hw : wfDoc st = true) (k2 : String) :
    flatAt (appendManagedKey st key comment v) k2 = flatAt st k2 := by
  unfold appendManagedKey
  cases hm : alookup st "managed" with
  | none => exact flatAt_aset_managed_vmap st _ (Or.inl hm) k2
  | some fv =>
    cases fv with
    | vstr s => exact absurd hm (wfDoc_managed_not_str hw)
    | vmap m => exact flatAt_aset_managed_vmap st _ (Or.inr ⟨m, hm⟩) k2

theorem flatAt_splice_eq (st : SecretState) (key : String) (i : Int)
    (k2 : String) : flatAt (spliceManagedKey st key i) k2 = flatAt st k2 := by
  unfold spliceManagedKey
  cases hm : alookup st "managed" with
  | none => rfl
  | some fv =>
    cases fv with
    | vstr s => rfl
    | vmap m =>
      dsimp only
      cases hk : alookup m key with
      | none => rfl
      | some l =>
        dsimp only
        by_cases hi : i < 0 ∨ (l.length : Int) ≤ i
        · rw [if_pos hi]
        · rw [if_neg hi]
          exact flatAt_aset_managed_vmap st _ (Or.inr ⟨m, hm⟩) k2

theorem toEntryVal_eq_flatAt {st : SecretState} {key : String}
    (h : alookup st key = none ∨ ∃ s, alookup st key = some (.vstr s)) :
    toEntryVal (alookup st key) = flatAt st key := by
  rcases h with h | ⟨s, h⟩ <;> simp [toEntryVal, flatAt, h]

theorem entryValEq_vstr_false {ev : Option String} {v : String}
    (h : ev ≠ some v) : entryValEq ev (some (.vstr v)) = false := by
  cases ev with
  | none => rfl
  | some s =>
    have hs : s ≠ v := fun hh => h (by rw [hh])
    simp [entryValEq, hs]

/-! ### Concrete documents used to instantiate the theorems -/

/-- A small well-formed document: one flat secret that is also the first
entry of its managed list. -/
def sampleDoc : SecretState :=
  [("api_key_openai", .vstr "v1"),
   ("managed", .vmap
      [("api_key_openai", [⟨"first", some "v1"⟩, ⟨"second", some "v2"⟩])])]

/-! ### C10 -/

/-- C10: legacy flat keys and the managed-lists field share one namespace
in the document, so writing the literal key "managed" replaces the whole
managed structure with the given string (after which no managed lists
remain), deleting it erases all managed lists, and write/delete on any
other key leave the managed mapping unchanged. -/
theorem write_delete_managed_namespace (st : SecretState) (v : String) :
    alookup (writeSecret st "managed" v) "managed" = some (.vstr v) ∧
    managedLists (writeSecret st "managed" v) = none ∧
    alookup (deleteSecret st "managed") "managed" = none ∧
    managedLists (deleteSecret st "managed") = none ∧
    (∀ k, k ≠ "managed" →
      managedLists (writeSecret st k v) = managedLists st ∧
      managedLists (deleteSecret st k) = managedLists st) := by
  refine ⟨alookup_aset_self st "managed" _, ?_, alookup_adel_self st "managed",
    ?_, ?_⟩
  · unfold managedLists writeSecret
    rw [alookup_aset_self]
  · unfold managedLists deleteSecret
    rw [alookup_adel_self]
  · intro k hk
    constructor
    · unfold managedLists writeSecret
      rw [alookup_aset_ne st k "managed" _ (Ne.symm hk)]
    · unfold managedLists deleteSecret
      rw [alookup_adel_ne st k "managed" (Ne.symm hk)]

/-- C10 witness: the frame part of the theorem at a concrete document and
a concrete key other than "managed". -/
theorem write_delete_managed_namespace_witness :
    managedLists (writeSecret sampleDoc "api_key_claude" "x")
      = managedLists sampleDoc ∧
    managedLists (deleteSecret sampleDoc "api_key_openai")
      = managedLists sampleDoc :=
  ⟨((write_delete_managed_namespace sampleDoc "x").2.2.2.2 "api_key_claude"
      (by decide)).1,
   ((write_delete_managed_namespace sampleDoc "x").2.2.2.2 "api_key_openai"
      (by decide)).2⟩

/-! ### C8 -/

/-- C8: splice removes exactly the entry at the given index when the index
is in range (other keys' lists untouched), and is a silent no-op that
leaves the document unchanged — hence re-serializing yields the same bytes
— when the list is absent or the index is out of range. -/
theorem splice_spec (st : SecretState) (key : String) (i : Int) :
    (arrayAt st key = none → spliceManagedKey st key i = st) ∧
    (∀ l, arrayAt st key = some l → (i < 0 ∨ (l.length : Int) ≤ i) →
      spliceManagedKey st key i = st) ∧
    (∀ l, arrayAt st key = some l → 0 ≤ i → i < (l.length : Int) →
      arrayAt (spliceManagedKey st key i) key = some (l.eraseIdx i.toNat) ∧
      (∀ k2, k2 ≠ key →
        arrayAt (spliceManagedKey st key i) k2 = arrayAt st k2)) := by
  refine ⟨?_, ?_, ?_⟩
  · intro h
    unfold spliceManagedKey
    cases hm : alookup st "managed" with
    | none => rfl
    | some fv =>
      cases fv with
      | vstr s => rfl
      | vmap m =>
        dsimp only
        have h2 : alookup m key = none := by
          rw [arrayAt_of_lookups hm] at h; exact h
        rw [h2]
  · intro l hl hi
    obtain ⟨m, hm, hml⟩ := arrayAt_eq_some hl
    unfold spliceManagedKey
    rw [hm]
    dsimp only
    rw [hml]
    dsimp only
    rw [if_pos hi]
  · intro l hl h0 hlen
    obtain ⟨m, hm, hml⟩ := arrayAt_eq_some hl
    have hsp : spliceManagedKey st key i
        = aset st "managed" (.vmap (aset m key (l.eraseIdx i.toNat))) := by
      unfold spliceManagedKey
      rw [hm]
      dsimp only
      rw [hml]
      dsimp only
      rw [if_neg (by omega)]
    constructor
    · rw [hsp]
      unfold arrayAt
      rw [alookup_aset_self]
      dsimp only
      rw [alookup_aset_self]
    · intro k2 hk2
      rw [hsp]
      unfold arrayAt
      rw [alookup_aset_self]
      dsimp only
      rw [alookup_aset_ne m key k2 _ hk2, hm]

/-- C8 witness: in-range removal and an out-of-range no-op on a concrete
document. -/
theorem splice_spec_witness :
    arrayAt (spliceManagedKey sampleDoc "api_key_openai" 0) "api_key_openai"
      = some [⟨"second", some "v2"⟩] ∧
    spliceManagedKey sampleDoc "api_key_openai" 2 = sampleDoc := by
  constructor
  · exact (((splice_spec sampleDoc "api_key_openai" 0).2.2
      [⟨"first", some "v1"⟩, ⟨"second", some "v2"⟩] rfl (by decide) (by decide)).1)
  · exact ((splice_spec sampleDoc "api_key_openai" 2).2.1
      [⟨"first", some "v1"⟩, ⟨"second", some "v2"⟩] rfl (by decide))

/-! ### C9 -/

/-- C9: neither append nor splice ever changes the flat mapping of a
document of the data model's shape — every active value, in particular the
one at the touched key, is identical before and after, even when splice
removes the entry holding the active value. -/
theorem append_splice_preserve_flat (st : SecretState) (key comment : String)
    (v : Option String) (i : Int) (hw : wfDoc st = true) :
    (∀ k2, flatAt (appendManagedKey st key comment v) k2 = flatAt st k2) ∧
    (∀ k2, flatAt (spliceManagedKey st key i) k2 = flatAt st k2) :=
  ⟨fun k2 => flatAt_append_eq st key comment v hw k2,
   fun k2 => flatAt_splice_eq st key i k2⟩

/-- C9 witness: splicing out the active entry of a concrete document keeps
the active value, and appending keeps the whole flat mapping. -/
theorem append_splice_preserve_flat_witness :
    flatAt (spliceManagedKey sampleDoc "api_key_openai" 0) "api_key_openai"
      = some "v1" ∧
    flatAt (appendManagedKey sampleDoc "api_key_openai" "third" (some "v3"))
        "api_key_openai" = some "v1" := by
  have h := append_splice_preserve_flat sampleDoc "api_key_openai" "third"
    (some "v3") 0 (by decide)
  exact ⟨h.2 "api_key_openai", h.1 "api_key_openai"⟩

/-! ### C1 -/

/-- The three-entry document [a, b, c] with the active value unset. -/
def cycleDoc0 : SecretState :=
  [("managed", .vmap
      [("k", [⟨"c1", some "a"⟩, ⟨"c2", some "b"⟩, ⟨"c3", some "c"⟩])])]

/-- One no-search rotate from `cycleDoc0`. -/
def cycleDoc1 : SecretState := rotateManagedSecret cycleDoc0 "k" Search.absent

/-- Two no-search rotates from `cycleDoc0`. -/
def cycleDoc2 : SecretState := rotateManagedSecret cycleDoc1 "k" Search.absent

/-- Three no-search rotates from `cycleDoc0`. -/
def cycleDoc3 : SecretState := rotateManagedSecret cycleDoc2 "k" Search.absent

/-- Four no-search rotates from `cycleDoc0`. -/
def cycleDoc4 : SecretState := rotateManagedSecret cycleDoc3 "k" Search.absent

/-- C1: with an empty or absent search, rotate on a key whose managed list
is non-empty writes the value of the entry after the first entry whose
value equals the active value — at index (j+1) modulo the length, i.e.
wrapping past the end to the first entry — and the first entry's value
when no entry matches (in particular when the active value is absent,
which under the data model matches no entry); when the list is absent or
empty rotate changes nothing; and on [a,b,c] from an unset active value
successive no-search rotates yield active values a, b, c, a. -/
theorem rotate_empty_search_cycles (st : SecretState) (key : String)
    (s : Search) (hw : wfDoc st = true)
    (hs : s = Search.absent ∨ ∃ t, s = Search.byStr t ∧ trimS t = "") :
    ((arrayAt st key = none ∨ arrayAt st key = some []) →
        rotateManagedSecret st key s = st) ∧
    (∀ l, arrayAt st key = some l →
      (∀ j e, findIdxA (specMatch (flatAt st key)) l = some j →
          l.get? ((j + 1) % l.length) = some e →
          flatAt (rotateManagedSecret st key s) key = e.value) ∧
      (findIdxA (specMatch (flatAt st key)) l = none →
          ∀ e0, l.get? 0 = some e0 →
          flatAt (rotateManagedSecret st key s) key = e0.value)) ∧
    (flatAt cycleDoc1 "k" = some "a" ∧ flatAt cycleDoc2 "k" = some "b" ∧
      flatAt cycleDoc3 "k" = some "c" ∧ flatAt cycleDoc4 "k" = some "a") := by
  refine ⟨rotate_noop st key s, ?_, by decide⟩
  intro l hl
  obtain ⟨m, hm, hml⟩ := arrayAt_eq_some hl
  cases l with
  | nil =>
    constructor
    · intro j e hj
      simp [findIdxA] at hj
    · intro _ e0 he0
      simp at he0
  | cons e0 rest =>
    have hwf : ∀ e ∈ (e0 :: rest), e.value.isSome = true := fun e hee =>
      wfDoc_managed_shape hw hm ⟨key, e0 :: rest⟩ (alookup_mem hml) e hee
    have hcongr :
        findIdxA (fun e => entryValEq e.value (alookup st key)) (e0 :: rest)
          = findIdxA (specMatch (flatAt st key)) (e0 :: rest) :=
      findIdxA_congr (fun e hee => entryValEq_eq_specMatch st key e (hwf e hee))
    have hrw := rotate_eq_write st key s hm hml
    have hpick : pickEntry st key s e0 rest
        = match findIdxA (fun e => entryValEq e.value (alookup st key))
            (e0 :: rest) with
          | some j => ((e0 :: rest).get? (j + 1)).getD e0
          | none => e0 := by
      unfold pickEntry
      rw [searchSelect_empty _ s hs]
    constructor
    · intro j e hj he
      rw [hrw, flatAt_writeSecretV_self, hpick, hcongr, hj]
      dsimp only
      rw [getD_succ_wrap e0 rest j (findIdxA_lt_length hj) e he]
    · intro hnone e00 he00
      rw [hrw, flatAt_writeSecretV_self, hpick, hcongr, hnone]
      have h00 : e00 = e0 := by
        have h01 : (e0 :: rest).get? 0 = some e0 := rfl
        rw [h01] at he00
        injection he00 with h3
        exact h3.symm
      rw [h00]

/-- C1 witness: the first rotate of the cycle, obtained from the theorem's
no-match case at the concrete document. -/
theorem rotate_empty_search_cycles_witness :
    flatAt (rotateManagedSecret cycleDoc0 "k" Search.absent) "k"
      = some "a" := by
  have h := rotate_empty_search_cycles cycleDoc0 "k" Search.absent (by decide)
    (Or.inl rfl)
  exact (h.2.1 [⟨"c1", some "a"⟩, ⟨"c2", some "b"⟩, ⟨"c3", some "c"⟩] rfl).2
    (by decide) ⟨"c1", some "a"⟩ rfl

/-! ### C4 -/

/-- A document whose first managed entry has the padded, mixed-case
comment " Prod ". -/
def trimDoc : SecretState :=
  [("managed", .vmap
      [("k", [⟨" Prod ", some "p"⟩, ⟨"Dev", some "d"⟩])]),
   ("k", .vstr "d")]

/-- C4: rotate's search precedence — an integer in [0, len) selects that
index; a string with non-empty trim selects the first entry whose comment
matches after trimming and case folding (so " Prod " is selected by
"prod"); and when neither rule selects an entry the call behaves exactly
like the no-search cyclic rotate. -/
theorem rotate_search_precedence (st : SecretState) (key : String) :
    (∀ l n e, arrayAt st key = some l → 0 ≤ n → n < (l.length : Int) →
        l.get? n.toNat = some e →
        flatAt (rotateManagedSecret st key (Search.byNum n)) key = e.value) ∧
    (∀ l s e, arrayAt st key = some l → 0 < (trimS s).length →
        l.find? (fun x => lowerS (trimS x.comment) == lowerS (trimS s))
          = some e →
        flatAt (rotateManagedSecret st key (Search.byStr s)) key = e.value) ∧
    (∀ n, (∀ l, arrayAt st key = some l → ¬(0 ≤ n ∧ n < (l.length : Int))) →
        rotateManagedSecret st key (Search.byNum n)
          = rotateManagedSecret st key Search.absent) ∧
    (∀ s, (∀ l, arrayAt st key = some l → 0 < (trimS s).length →
          l.find? (fun x => lowerS (trimS x.comment) == lowerS (trimS s))
            = none) →
        rotateManagedSecret st key (Search.byStr s)
          = rotateManagedSecret st key Search.absent) ∧
    flatAt (rotateManagedSecret trimDoc "k" (Search.byStr "prod")) "k"
      = some "p" := by
  refine ⟨?_, ?_, ?_, ?_, by decide⟩
  · intro l n e hl h0 hlen hget
    obtain ⟨m, hm, hml⟩ := arrayAt_eq_some hl
    cases l with
    | nil => simp at hget
    | cons x rest =>
      rw [rotate_eq_write st key (Search.byNum n) hm hml,
        flatAt_writeSecretV_self]
      unfold pickEntry searchSelect
      dsimp only
      rw [if_pos ⟨h0, hlen⟩, hget]
  · intro l s e hl hst hfind
    obtain ⟨m, hm, hml⟩ := arrayAt_eq_some hl
    cases l with
    | nil => simp at hfind
    | cons x rest =>
      rw [rotate_eq_write st key (Search.byStr s) hm hml,
        flatAt_writeSecretV_self]
      unfold pickEntry searchSelect
      dsimp only
      rw [if_pos hst, hfind]
  · intro n hn
    cases hl : arrayAt st key with
    | none =>
      rw [rotate_noop st key _ (Or.inl hl), rotate_noop st key _ (Or.inl hl)]
    | some l =>
      cases l with
      | nil =>
        rw [rotate_noop st key _ (Or.inr hl), rotate_noop st key _ (Or.inr hl)]
      | cons x rest =>
        obtain ⟨m, hm, hml⟩ := arrayAt_eq_some hl
        rw [rotate_eq_write st key (Search.byNum n) hm hml,
          rotate_eq_write st key Search.absent hm hml]
        have h1 : searchSelect (x :: rest) (Search.byNum n) = none := by
          unfold searchSelect
          dsimp only
          rw [if_neg (hn _ hl)]
        have h2 : pickEntry st key (Search.byNum n) x rest
            = pickEntry st key Search.absent x rest := by
          unfold pickEntry
          rw [h1]
          rfl
        rw [h2]
  · intro s hfind
    cases hl : arrayAt st key with
    | none =>
      rw [rotate_noop st key _ (Or.inl hl), rotate_noop st key _ (Or.inl hl)]
    | some l =>
      cases l with
      | nil =>
        rw [rotate_noop st key _ (Or.inr hl), rotate_noop st key _ (Or.inr hl)]
      | cons x rest =>
        obtain ⟨m, hm, hml⟩ := arrayAt_eq_some hl
        rw [rotate_eq_write st key (Search.byStr s) hm hml,
          rotate_eq_write st key Search.absent hm hml]
        have h1 : searchSelect (x :: rest) (Search.byStr s) = none := by
          unfold searchSelect
          dsimp only
          by_cases hst : 0 < (trimS s).length
          · rw [if_pos hst]
            exact hfind _ hl hst
          · rw [if_neg hst]
        have h2 : pickEntry st key (Search.byStr s) x rest
            = pickEntry st key Search.absent x rest := by
          unfold pickEntry
          rw [h1]
          rfl
        rw [h2]

/-- C4 witness: an in-range integer search selects that entry on a
concrete document. -/
theorem rotate_search_precedence_witness :
    flatAt (rotateManagedSecret trimDoc "k" (Search.byNum 1)) "k"
      = some "d" := by
  have h := (rotate_search_precedence trimDoc "k").1
  exact h [⟨" Prod ", some "p"⟩, ⟨"Dev", some "d"⟩] 1 ⟨"Dev", some "d"⟩ rfl
    (by decide) (by decide) rfl

/-! ### C2 -/

/-- C2 counterexample: from the empty document, two consecutive migrate
calls for the literal key "managed" both succeed (neither answers
Conflict) and the managed list for that key grows to two entries.  The
flat slot of this key is the managed structure itself, so the probe of the
second call compares entry values against a non-string and never
matches. -/
theorem migrate_managed_key_not_idempotent :
    (migrateManagedSecret ([] : SecretState) "managed" "c1").isConflict
      = false ∧
    (migrateManagedSecret
        (migrateManagedSecret ([] : SecretState) "managed" "c1").state
        "managed" "c2").isConflict = false ∧
    (arrayAt (migrateManagedSecret
        (migrateManagedSecret ([] : SecretState) "managed" "c1").state
        "managed" "c2").state "managed").map List.length = some 2 := by
  decide

/-- C2 (amended): for documents of the data model's shape and keys other
than the literal "managed", migrate answers Conflict — leaving the
document unchanged — exactly when probe reports the active value as
already managed; otherwise it appends {comment, A} at the end of the
key's managed list and leaves the active value unchanged, and a second
migrate with no intervening change answers Conflict, the list having
grown by exactly one entry overall. -/
theorem migrate_conflict_iff (st : SecretState) (key comment : String)
    (hw : wfDoc st = true) (hk : key ≠ "managed") :
    ((migrateManagedSecret st key comment).isConflict
        = (probeManagedKey st key).result) ∧
    ((probeManagedKey st key).result = true →
        (migrateManagedSecret st key comment).state = st) ∧
    ((probeManagedKey st key).result = false →
        arrayAt (migrateManagedSecret st key comment).state key
          = some ((arrayAt st key).getD [] ++ [⟨comment, flatAt st key⟩]) ∧
        flatAt (migrateManagedSecret st key comment).state key
          = flatAt st key ∧
        (∀ c2, (migrateManagedSecret
              (migrateManagedSecret st key comment).state key c2).isConflict
            = true)) := by
  have hflat := wfDoc_flat_shape hw hk
  have htv : toEntryVal (alookup st key) = flatAt st key :=
    toEntryVal_eq_flatAt hflat
  refine ⟨?_, ?_, ?_⟩
  · unfold migrateManagedSecret
    cases hp : (probeManagedKey st key).result <;>
      simp [hp, MigrateOutcome.isConflict]
  · intro hp
    unfold migrateManagedSecret
    simp [hp, MigrateOutcome.state]
  · intro hp
    have hmig : migrateManagedSecret st key comment
        = .ok (appendManagedKey st key comment (toEntryVal (alookup st key))) := by
      unfold migrateManagedSecret
      simp [hp]
    refine ⟨?_, ?_, ?_⟩
    · rw [hmig]
      have h2 := arrayAt_append st key comment (toEntryVal (alookup st key)) hw
      rw [htv] at h2
      exact h2
    · rw [hmig]
      exact flatAt_append_eq st key comment _ hw key
    · intro c2
      have harr2 : arrayAt (appendManagedKey st key comment
            (toEntryVal (alookup st key))) key
          = some ((arrayAt st key).getD []
              ++ [⟨comment, toEntryVal (alookup st key)⟩]) :=
        arrayAt_append st key comment _ hw
      have hlk2 : alookup (appendManagedKey st key comment
            (toEntryVal (alookup st key))) key = alookup st key :=
        alookup_append_ne_managed st key comment _ key hk hw
      have hmatch : entryValEq (toEntryVal (alookup st key))
          (alookup (appendManagedKey st key comment
            (toEntryVal (alookup st key))) key) = true := by
        rw [hlk2]
        rcases hflat with h | ⟨s, h⟩ <;> simp [h, toEntryVal, entryValEq]
      have hmem : (⟨comment, toEntryVal (alookup st key)⟩ : Entry)
          ∈ (arrayAt st key).getD []
              ++ [⟨comment, toEntryVal (alookup st key)⟩] := by
        simp
      have hp2 : (probeManagedKey (appendManagedKey st key comment
            (toEntryVal (alookup st key))) key).result = true :=
        probe_result_true harr2 hmem hmatch
      rw [hmig]
      unfold migrateManagedSecret
      simp [hp2, MigrateOutcome.isConflict, MigrateOutcome.state]

/-- C2 witness: on the sample document the active value is already managed
(Conflict), while on a fresh key the call appends the current (absent)
value. -/
theorem migrate_conflict_iff_witness :
    (migrateManagedSecret sampleDoc "api_key_openai" "again").isConflict
      = true ∧
    arrayAt (migrateManagedSecret sampleDoc "api_key_claude" "new").state
        "api_key_claude" = some [⟨"new", none⟩] := by
  constructor
  · have h := (migrate_conflict_iff sampleDoc "api_key_openai" "again"
      (by decide) (by decide)).1
    rw [h]
    decide
  · have h := ((migrate_conflict_iff sampleDoc "api_key_claude" "new"
      (by decide) (by decide)).2.2 (by decide)).1
    exact h

/-! ### C6 -/

/-- A document whose managed list already contains the value that is
appended again. -/
def dupDoc : SecretState :=
  [("managed", .vmap [("k", [⟨"c1", some "v"⟩])])]

/-- C6 counterexample: appending a duplicate value and writing it as the
active value makes probe return the index of the FIRST entry carrying that
value (0), not the position of the newly appended entry (1, the last
position of the two-entry list). -/
theorem append_probe_duplicate_counterexample :
    probeManagedKey
        (writeSecret (appendManagedKey dupDoc "k" "c2" (some "v")) "k" "v")
        "k" = ⟨true, 0⟩ ∧
    (arrayAt (appendManagedKey dupDoc "k" "c2" (some "v")) "k").map
        List.length = some 2 := by
  decide

/-- C6 (amended): provided the appended value does not already occur among
the entry values of the key's managed list — and the document matches the
data model, the key not being the literal "managed" — appending
{comment, v} and then writing v as the active value makes probe report
managed with index the position of the newly appended entry, the last
position of the grown list. -/
theorem append_write_probe_last (st : SecretState) (key comment v : String)
    (hw : wfDoc st = true) (hk : key ≠ "managed")
    (hv : ∀ e ∈ (arrayAt st key).getD [], e.value ≠ some v) :
    probeManagedKey
        (writeSecret (appendManagedKey st key comment (some v)) key v) key
      = ⟨true, (((arrayAt st key).getD []).length : Int)⟩ := by
  have harr : arrayAt (appendManagedKey st key comment (some v)) key
      = some ((arrayAt st key).getD [] ++ [⟨comment, some v⟩]) :=
    arrayAt_append st key comment (some v) hw
  have harr2 : arrayAt
      (writeSecret (appendManagedKey st key comment (some v)) key v) key
      = some ((arrayAt st key).getD [] ++ [⟨comment, some v⟩]) := by
    rw [arrayAt_writeSecret_ne _ key v key hk, harr]
  have hcur : alookup
      (writeSecret (appendManagedKey st key comment (some v)) key v) key
      = some (.vstr v) := alookup_aset_self _ key _
  have hfind : findIdxA (fun e => entryValEq e.value (some (FieldVal.vstr v)))
      ((arrayAt st key).getD [] ++ [⟨comment, some v⟩])
      = some ((arrayAt st key).getD []).length :=
    findIdxA_append_last _ _ _
      (fun y hy => entryValEq_vstr_false (hv y hy)) (by simp [entryValEq])
  rw [probe_of_findIdxA harr2]
  simp only [hcur]
  rw [hfind]

/-- C6 witness: on the sample document with a fresh value, probe returns
the last position of the grown list. -/
theorem append_write_probe_last_witness :
    probeManagedKey (writeSecret (appendManagedKey sampleDoc
        "api_key_openai" "third" (some "v3")) "api_key_openai" "v3")
        "api_key_openai" = ⟨true, 2⟩ := by
  exact append_write_probe_last sampleDoc "api_key_openai" "third" "v3"
    (by decide) (by decide) (by decide)

/-! ### C7 -/

/-- The data that determines the manager view: the keys in order, each
entry's comment, and the value-equality pattern against the active values
— no secret material. -/
def viewShape (st : SecretState) (m : List (String × List Entry)) :
    List (String × List (String × Bool)) :=
  m.map (fun p =>
    (p.1, p.2.map (fun e => (e.comment, specMatch (flatAt st p.1) e))))

/-- C7: the manager view maps each key of the managed map, in order, to
its entries' {comment, selected} records in list order, with selected true
exactly when the entry's value equals the active value at that key; the
view carries no value fields, so any two documents agreeing on comments
and on the value-equality pattern have identical views regardless of the
secret material. -/
theorem manager_view_redacted (st : SecretState)
    (m : List (String × List Entry)) (hw : wfDoc st = true)
    (hm : alookup st "managed" = some (.vmap m)) :
    readManagedSecretsState st
      = m.map (fun p => (p.1, p.2.map (fun e =>
          ManagedKeyState.mk e.comment (specMatch (flatAt st p.1) e)))) ∧
    (readManagedSecretsState st).map Prod.fst = m.map Prod.fst ∧
    (∀ st2 m2, wfDoc st2 = true →
        alookup st2 "managed" = some (.vmap m2) →
        viewShape st m = viewShape st2 m2 →
        readManagedSecretsState st = readManagedSecretsState st2) := by
  have hview : ∀ (st0 : SecretState) (m0 : List (String × List Entry)),
      wfDoc st0 = true → alookup st0 "managed" = some (.vmap m0) →
      readManagedSecretsState st0
        = m0.map (fun p => (p.1, p.2.map (fun e =>
            ManagedKeyState.mk e.comment (specMatch (flatAt st0 p.1) e)))) := by
    intro st0 m0 hw0 hm0
    unfold readManagedSecretsState
    rw [hm0]
    dsimp only
    apply List.map_congr_left
    intro p hp
    congr 1
    apply List.map_congr_left
    intro e he
    have hwf := wfDoc_managed_shape hw0 hm0 p hp e he
    rw [entryValEq_eq_specMatch st0 p.1 e hwf]
  have hshaped : ∀ (st0 : SecretState) (m0 : List (String × List Entry)),
      m0.map (fun p => (p.1, p.2.map (fun e =>
          ManagedKeyState.mk e.comment (specMatch (flatAt st0 p.1) e))))
        = (viewShape st0 m0).map (fun p =>
            (p.1, p.2.map (fun q => ManagedKeyState.mk q.1 q.2))) := by
    intro st0 m0
    unfold viewShape
    rw [List.map_map]
    apply List.map_congr_left
    intro p hp
    dsimp only [Function.comp]
    rw [List.map_map]
    rfl
  refine ⟨hview st m hw hm, ?_, ?_⟩
  · rw [hview st m hw hm]
    rw [List.map_map]
    rfl
  · intro st2 m2 hw2 hm2 hshape
    rw [hview st m hw hm, hview st2 m2 hw2 hm2, hshaped st m, hshaped st2 m2,
      hshape]

/-- C7 witness: the view of the sample document. -/
theorem manager_view_redacted_witness :
    readManagedSecretsState sampleDoc
      = [("api_key_openai", [⟨"first", true⟩, ⟨"second", false⟩])] := by
  have h := (manager_view_redacted sampleDoc
      [("api_key_openai", [⟨"first", some "v1"⟩, ⟨"second", some "v2"⟩])]
      (by decide) rfl).1
  rw [h]
  decide

/-! ### C3: the persistence boundary -/

/-- Parse failure of the backing file (a thrown `JSON.parse` error). -/
inductive LoadError where
  | corruption
deriving DecidableEq, Repr

/-- The values of the fixed catalog `SECRET_KEYS`. -/
def SECRET_KEYS : List String :=
  ["api_key_horde", "api_key_mancer", "api_key_vllm", "api_key_aphrodite",
   "api_key_tabby", "api_key_openai", "api_key_novel", "api_key_claude",
   "deepl", "libre", "libre_url", "lingva_url", "api_key_openrouter",
   "api_key_scale", "api_key_ai21", "scale_cookie", "oneringtranslator_url",
   "deeplx_url", "api_key_makersuite", "api_key_serpapi",
   "api_key_togetherai", "api_key_mistralai", "api_key_custom",
   "api_key_ooba", "api_key_infermaticai", "api_key_dreamgen",
   "api_key_nomicai", "api_key_koboldcpp", "api_key_llamacpp",
   "api_key_cohere", "api_key_perplexity", "api_key_groq",
   "api_key_azure_tts", "api_key_featherless", "api_key_01ai",
   "api_key_huggingface", "api_key_stability", "api_key_blockentropy",
   "api_key_custom_openai_tts", "api_key_tavily", "api_key_nanogpt",
   "api_key_bfl", "api_key_generic", "api_key_deepseek"]

/-- `getSecretState`: a fresh clone of `INITIAL_STATE` when the backing
file does not exist; otherwise `JSON.parse(fileContents)`, whose failure
propagates to the caller as a thrown error.  The external `JSON.parse` is
supplied as `parse` (`none` models a throw); the storage argument is
`none` when the file is absent and carries the file contents otherwise. -/
def getSecretState (parse : String → Option SecretState) :
    Option String → Except LoadError SecretState
  | none => .ok initialState
  | some contents =>
      match parse contents with
      | some st => .ok st
      | none => .error .corruption

/-- `readSecretState` (the flag view): `{}` when the file does not exist;
otherwise parse the file (failure propagates) and report `!!secrets[key]`
for every catalog key, skipping the literal key `managed`. -/
def readSecretState (parse : String → Option SecretState) :
    Option String → Except LoadError (List (String × Bool))
  | none => .ok []
  | some contents =>
      match parse contents with
      | some secrets =>
          .ok ((SECRET_KEYS.filter (fun k => k != "managed")).map
            (fun k => (k, truthy (alookup secrets k))))
      | none => .error .corruption

/-- The `/read` route: sends the flag state, but catches any error and
sends the empty object instead. -/
def routeReadSecrets (parse : String → Option SecretState)
    (storage : Option String) : List (String × Bool) :=
  match readSecretState parse storage with
  | .ok state => state
  | .error _ => []

/-- C3 counterexample: for an existing backing file whose contents do not
parse (`parse` instantiates `JSON.parse` rejecting them), the load step
itself reports Corruption, yet the flag-reading route exposed to callers
answers the empty state — the same answer it gives for an absent file —
instead of surfacing the error. -/
theorem read_route_swallows_corruption :
    readSecretState (fun _ => none) (some "not json")
      = .error .corruption ∧
    routeReadSecrets (fun _ => none) (some "not json") = [] ∧
    routeReadSecrets (fun _ => none) none = [] :=
  ⟨rfl, rfl, rfl⟩

/-- C3 (amended): the load layer behaves as claimed — a parse failure on
an existing file surfaces Corruption from `getSecretState` and
`readSecretState` and is never replaced by an empty document, an absent
file yields the fresh initial document, and a successful parse is
returned as-is — but the flag-reading HTTP route catches the error and
answers the empty state, indistinguishable from an absent file. -/
theorem load_corruption_spec (parse : String → Option SecretState)
    (contents : String) :
    (parse contents = none →
        getSecretState parse (some contents) = .error .corruption ∧
        readSecretState parse (some contents) = .error .corruption ∧
        routeReadSecrets parse (some contents)
          = routeReadSecrets parse none) ∧
    (∀ st, parse contents = some st →
        getSecretState parse (some contents) = .ok st) ∧
    getSecretState parse none = .ok initialState := by
  refine ⟨?_, ?_, rfl⟩
  · intro hbad
    refine ⟨?_, ?_, ?_⟩
    · unfold getSecretState
      dsimp only
      rw [hbad]
    · unfold readSecretState
      dsimp only
      rw [hbad]
    · unfold routeReadSecrets readSecretState
      dsimp only
      rw [hbad]
  · intro st0 hgood
    unfold getSecretState
    dsimp only
    rw [hgood]

/-- C3 witness: the amended theorem at a concrete rejecting parse. -/
theorem load_corruption_spec_witness :
    getSecretState (fun _ => none) (some "oops") = .error .corruption :=
  ((load_corruption_spec (fun _ => none) "oops").1 rfl).1

end Secrets
